import Mathlib

/-!
Verification of the MicroBit fiber scheduler (microbit-dal, MicroBitFiber.h).

The repository slice consists of the scheduler's header file.  The constants,
the Fiber record layout and the body of inInterruptContext are taken directly
from that header.  The scheduler operations themselves (queue management,
sleep/wait, tick and event delivery, fork-on-block, stack resizing) are only
declared there, so they are modelled from the specification, following its
design note that intrusive linked lists be recast as an arena of Fiber records
addressed by stable indices, with queue membership tracked by explicit lists
and a per-fiber queue back-pointer.
-/

/-- Constant from MicroBitFiber.h: FIBER_STACK_SIZE. -/
def FIBER_STACK_SIZE : Nat := 64

/-- Constant from MicroBitFiber.h: FIBER_TICK_PERIOD_MS. -/
def FIBER_TICK_PERIOD_MS : Nat := 6

/-- Constant from MicroBitFiber.h: CORTEX_M0_STACK_BASE = 0x20004000 - 4. -/
def CORTEX_M0_STACK_BASE : Nat := 0x20004000 - 4

/-- Constant from MicroBitFiber.h: MICROBIT_FIBER_FLAG_FOB. -/
def MICROBIT_FIBER_FLAG_FOB : Nat := 0x01

/-- Constant from MicroBitFiber.h: MICROBIT_FIBER_FLAG_PARENT. -/
def MICROBIT_FIBER_FLAG_PARENT : Nat := 0x02

/-- Constant from MicroBitFiber.h: MICROBIT_FIBER_FLAG_CHILD. -/
def MICROBIT_FIBER_FLAG_CHILD : Nat := 0x04

/-- The three queues of the scheduler: run, sleep and wait. -/
inductive QueueId where
  | run
  | sleep
  | wait
deriving DecidableEq, Repr

/-- Completion function of a fiber: the default release_fiber exit point of
MicroBitFiber.h, or a user supplied completion routine (identified by a tag). -/
inductive CompletionFn where
  | release_fiber
  | custom (tag : Nat)
deriving DecidableEq, Repr

/-- The Fiber control block of MicroBitFiber.h: stack bounds, context word,
flags word and the queue back-pointer.  The intrusive next/prev links are
replaced by explicit queue lists over fiber indices (spec design note), the
register context tcb is abstracted to the entry/completion information it is
initialised with (entry_fn, param, completion_fn). -/
structure Fiber where
  stack_top : Nat
  stack_bottom : Nat
  context : Nat
  flags : Nat
  queue : Option QueueId
  entry_fn : Nat
  param : Nat
  completion_fn : CompletionFn
deriving DecidableEq, Repr

/-- Global scheduler state: an arena of fibers addressed by index, the three
queues as lists of fiber indices, and the millisecond tick counter. -/
structure SchedState where
  fibers : Nat → Fiber
  numFibers : Nat
  runQueue : List Nat
  sleepQueue : List Nat
  waitQueue : List Nat
  ticks : Nat

/-- The list of fiber indices currently stored on a given queue. -/
def queueOf (S : SchedState) : QueueId → List Nat
  | QueueId.run => S.runQueue
  | QueueId.sleep => S.sleepQueue
  | QueueId.wait => S.waitQueue

/-- Replace the fiber record at index f of the arena. -/
def updateFiber (S : SchedState) (f : Nat) (fb : Fiber) : SchedState :=
  { S with fibers := fun i => if i = f then fb else S.fibers i }

/-- Replace the contents of a given queue. -/
def setQueueList (S : SchedState) : QueueId → List Nat → SchedState
  | QueueId.run, l => { S with runQueue := l }
  | QueueId.sleep, l => { S with sleepQueue := l }
  | QueueId.wait, l => { S with waitQueue := l }

/-- Modelled from the spec: the body of queue_fiber is not in src (the header
only declares it).  Per spec 4.4 it inserts f at the head of the target
intrusive list and sets f's queue back-pointer. -/
def queue_fiber (S : SchedState) (f : Nat) (q : QueueId) : SchedState :=
  let S1 := setQueueList S q (f :: queueOf S q)
  updateFiber S1 f { S1.fibers f with queue := some q }

/-- Modelled from the spec: the body of dequeue_fiber is not in src (the
header only declares it).  Per spec 4.4 it removes f from whatever queue its
back-pointer names, patching neighbour links; a fiber on no queue is left
unchanged. -/
def dequeue_fiber (S : SchedState) (f : Nat) : SchedState :=
  match (S.fibers f).queue with
  | none => S
  | some q =>
    let S1 := setQueueList S q ((queueOf S q).erase f)
    updateFiber S1 f { S1.fibers f with queue := none }

instance decidableForallQueueId (p : QueueId → Prop) [DecidablePred p] :
    Decidable (∀ q, p q) :=
  decidable_of_iff (p QueueId.run ∧ p QueueId.sleep ∧ p QueueId.wait)
    ⟨fun h q => by cases q
                   exacts [h.1, h.2.1, h.2.2],
     fun h => ⟨h QueueId.run, h QueueId.sleep, h QueueId.wait⟩⟩

/-- Queue exclusivity invariant (spec section 8 and 4.4): every fiber stored on
a queue is a valid arena index whose back-pointer names that queue; every valid
fiber whose back-pointer names a queue is stored on it; and no queue holds a
fiber twice. -/
def QueueInv (S : SchedState) : Prop :=
  (∀ q : QueueId, ∀ f ∈ queueOf S q, f < S.numFibers ∧ (S.fibers f).queue = some q)
  ∧ (∀ f : Nat, f < S.numFibers → ∀ q : QueueId, (S.fibers f).queue = some q → f ∈ queueOf S q)
  ∧ (∀ q : QueueId, (queueOf S q).Nodup)

instance decidableInv (S : SchedState) : Decidable (QueueInv S) := by
  unfold QueueInv
  infer_instance

lemma queueOf_setQueueList (S : SchedState) (q : QueueId) (l : List Nat) (q' : QueueId) :
    queueOf (setQueueList S q l) q' = if q' = q then l else queueOf S q' := by
  cases q <;> cases q' <;> simp [setQueueList, queueOf]

lemma fibers_setQueueList (S : SchedState) (q : QueueId) (l : List Nat) :
    (setQueueList S q l).fibers = S.fibers := by
  cases q <;> rfl

lemma numFibers_setQueueList (S : SchedState) (q : QueueId) (l : List Nat) :
    (setQueueList S q l).numFibers = S.numFibers := by
  cases q <;> rfl

lemma queueOf_updateFiber (S : SchedState) (f : Nat) (fb : Fiber) (q : QueueId) :
    queueOf (updateFiber S f fb) q = queueOf S q := by
  cases q <;> rfl

lemma fibers_updateFiber (S : SchedState) (f : Nat) (fb : Fiber) (i : Nat) :
    (updateFiber S f fb).fibers i = if i = f then fb else S.fibers i := rfl

lemma numFibers_updateFiber (S : SchedState) (f : Nat) (fb : Fiber) :
    (updateFiber S f fb).numFibers = S.numFibers := rfl

lemma queueOf_queue_fiber (S : SchedState) (f : Nat) (q : QueueId) (q' : QueueId) :
    queueOf (queue_fiber S f q) q' = if q' = q then f :: queueOf S q else queueOf S q' := by
  simp [queue_fiber, queueOf_updateFiber, queueOf_setQueueList]

lemma fibers_queue_fiber (S : SchedState) (f : Nat) (q : QueueId) (i : Nat) :
    (queue_fiber S f q).fibers i =
      if i = f then { S.fibers f with queue := some q } else S.fibers i := by
  simp [queue_fiber, fibers_updateFiber, fibers_setQueueList]

lemma numFibers_queue_fiber (S : SchedState) (f : Nat) (q : QueueId) :
    (queue_fiber S f q).numFibers = S.numFibers := by
  simp [queue_fiber, numFibers_updateFiber, numFibers_setQueueList]

/-- The queue_fiber operation preserves the queue exclusivity invariant when it
is applied, as the header documents, to the currently running fiber, i.e. a
valid fiber that is on no queue. -/
lemma Inv_queue_fiber (S : SchedState) (f : Nat) (q : QueueId) (hInv : QueueInv S)
    (hf : f < S.numFibers) (hfree : (S.fibers f).queue = none) :
    QueueInv (queue_fiber S f q) := by
  obtain ⟨h1, h2, h3⟩ := hInv
  have hnotmem : ∀ q' : QueueId, f ∉ queueOf S q' := by
    intro q' hmem
    have := (h1 q' f hmem).2
    rw [hfree] at this
    exact Option.noConfusion this
  refine ⟨?_, ?_, ?_⟩
  · intro q' g hg
    rw [queueOf_queue_fiber] at hg
    rw [fibers_queue_fiber, numFibers_queue_fiber]
    by_cases hq : q' = q
    · subst hq
      simp at hg
      rcases hg with hg | hg
      · subst hg
        simp [hf]
      · have hgf : g ≠ f := fun h => hnotmem q' (h ▸ hg)
        have := h1 q' g hg
        simp [hgf, this.1, this.2]
    · simp [hq] at hg
      have hgf : g ≠ f := fun h => hnotmem q' (h ▸ hg)
      have := h1 q' g hg
      simp [hgf, this.1, this.2]
  · intro g hg q' hq'
    rw [numFibers_queue_fiber] at hg
    rw [fibers_queue_fiber] at hq'
    rw [queueOf_queue_fiber]
    by_cases hgf : g = f
    · subst hgf
      simp at hq'
      simp [← hq']
    · simp [hgf] at hq'
      have := h2 g hg q' hq'
      by_cases hqq : q' = q
      · subst hqq
        simp [this]
      · simp [hqq, this]
  · intro q'
    rw [queueOf_queue_fiber]
    by_cases hq : q' = q
    · subst hq
      simp
      exact ⟨hnotmem q', h3 q'⟩
    · simp [hq]
      exact h3 q'

/-- The dequeue_fiber operation preserves the queue exclusivity invariant. -/
lemma Inv_dequeue_fiber (S : SchedState) (f : Nat) (hInv : QueueInv S) :
    QueueInv (dequeue_fiber S f) := by
  obtain ⟨h1, h2, h3⟩ := hInv
  rcases hqf : (S.fibers f).queue with _ | qf
  · simpa [dequeue_fiber, hqf] using ⟨h1, h2, h3⟩
  · have hques : ∀ q' : QueueId,
        queueOf (dequeue_fiber S f) q' =
          if q' = qf then (queueOf S qf).erase f else queueOf S q' := by
      intro q'
      simp [dequeue_fiber, hqf, queueOf_updateFiber, queueOf_setQueueList]
    have hfib : ∀ i, (dequeue_fiber S f).fibers i =
        if i = f then { S.fibers f with queue := none } else S.fibers i := by
      intro i
      simp [dequeue_fiber, hqf, fibers_updateFiber, fibers_setQueueList]
    have hnum : (dequeue_fiber S f).numFibers = S.numFibers := by
      simp [dequeue_fiber, hqf, numFibers_updateFiber, numFibers_setQueueList]
    refine ⟨?_, ?_, ?_⟩
    · intro q' g hg
      rw [hques] at hg
      rw [hfib, hnum]
      by_cases hq : q' = qf
      · subst hq
        rw [if_pos rfl] at hg
        have hg' := ((h3 q').mem_erase_iff).1 hg
        have := h1 q' g hg'.2
        simp [hg'.1, this.1, this.2]
      · simp [hq] at hg
        have := h1 q' g hg
        have hgf : g ≠ f := by
          intro h
          subst h
          rw [hqf] at this
          exact hq (Option.some_injective _ this.2.symm)
        simp [hgf, this.1, this.2]
    · intro g hg q' hq'
      rw [hnum] at hg
      rw [hfib] at hq'
      rw [hques]
      by_cases hgf : g = f
      · subst hgf
        simp at hq'
      · simp [hgf] at hq'
        have := h2 g hg q' hq'
        by_cases hq : q' = qf
        · subst hq
          simp [List.mem_erase_of_ne hgf, this]
        · simp [hq, this]
    · intro q'
      rw [hques]
      by_cases hq : q' = qf
      · subst hq
        simp
        exact (h3 q').erase f
      · simp [hq]
        exact h3 q'

/-- Modelled from the spec: the body of fiber_sleep is not in src (the header
only declares it).  Per spec 4.3 it computes an absolute wake time (current
tick + t), stores it in the calling fiber's context word, inserts the fiber
into the sleep queue and yields.  The calling fiber cur is the currently
running one. -/
def fiber_sleep (S : SchedState) (cur : Nat) (t : Nat) : SchedState :=
  let S1 := dequeue_fiber S cur
  let S2 := updateFiber S1 cur { S1.fibers cur with context := S.ticks + t }
  queue_fiber S2 cur QueueId.sleep

/-- Modelled from the spec: the body of scheduler_tick is not in src (the
header only declares it).  Per spec 4.3 and the header comment it runs once
every FIBER_TICK_PERIOD_MS milliseconds, advances the tick counter and moves
every sleeping fiber whose wake time has passed to the run queue. -/
def scheduler_tick (S : SchedState) : SchedState :=
  let t' := S.ticks + FIBER_TICK_PERIOD_MS
  let movers := S.sleepQueue.filter (fun f => decide ((S.fibers f).context ≤ t'))
  { fibers := fun i => if i ∈ movers then { S.fibers i with queue := some QueueId.run }
      else S.fibers i,
    numFibers := S.numFibers,
    runQueue := movers ++ S.runQueue,
    sleepQueue := S.sleepQueue.filter (fun f => !decide ((S.fibers f).context ≤ t')),
    waitQueue := S.waitQueue,
    ticks := t' }

/-- Iterated scheduler ticks: the state after n timer interrupts. -/
def tickN : Nat → SchedState → SchedState
  | 0, S => S
  | n + 1, S => tickN n (scheduler_tick S)

lemma mem_run_scheduler_tick (S : SchedState) (f : Nat) (h : f ∈ S.runQueue) :
    f ∈ (scheduler_tick S).runQueue := by
  simp [scheduler_tick, List.mem_append]
  exact Or.inr h

lemma mem_run_tickN (n : Nat) : ∀ S : SchedState, ∀ f ∈ S.runQueue, f ∈ (tickN n S).runQueue := by
  induction n with
  | zero => intro S f h; exact h
  | succ n ih =>
    intro S f h
    exact ih (scheduler_tick S) f (mem_run_scheduler_tick S f h)

lemma ticks_scheduler_tick (S : SchedState) :
    (scheduler_tick S).ticks = S.ticks + FIBER_TICK_PERIOD_MS := rfl

lemma scheduler_tick_sleep_stay (S : SchedState) (f w : Nat) (hmem : f ∈ S.sleepQueue)
    (hctx : (S.fibers f).context = w) (hlt : S.ticks + FIBER_TICK_PERIOD_MS < w) :
    f ∈ (scheduler_tick S).sleepQueue ∧ ((scheduler_tick S).fibers f).context = w ∧
      (f ∉ S.runQueue → f ∉ (scheduler_tick S).runQueue) := by
  have hnotle : ¬ (S.fibers f).context ≤ S.ticks + FIBER_TICK_PERIOD_MS := by
    rw [hctx]; omega
  have hnotmov : f ∉ S.sleepQueue.filter
      (fun g => decide ((S.fibers g).context ≤ S.ticks + FIBER_TICK_PERIOD_MS)) := by
    intro hmov
    rw [List.mem_filter] at hmov
    exact hnotle (by simpa using hmov.2)
  refine ⟨?_, ?_, ?_⟩
  · simp only [scheduler_tick]
    rw [List.mem_filter]
    refine ⟨hmem, ?_⟩
    simp [hnotle]
  · simp only [scheduler_tick]
    rw [if_neg hnotmov]
    exact hctx
  · intro hrun hmem'
    simp only [scheduler_tick] at hmem'
    rcases List.mem_append.1 hmem' with h | h
    · exact hnotmov h
    · exact hrun h

lemma scheduler_tick_wake (S : SchedState) (f w : Nat) (hmem : f ∈ S.sleepQueue)
    (hctx : (S.fibers f).context = w) (hle : w ≤ S.ticks + FIBER_TICK_PERIOD_MS) :
    f ∈ (scheduler_tick S).runQueue := by
  simp [scheduler_tick, List.mem_append, List.mem_filter]
  left
  exact ⟨hmem, by rw [hctx]; exact hle⟩

lemma asleep_tickN (f w : Nat) : ∀ (n : Nat) (S : SchedState), f ∈ S.sleepQueue →
    (S.fibers f).context = w → f ∉ S.runQueue → S.ticks + n * FIBER_TICK_PERIOD_MS < w →
    f ∉ (tickN n S).runQueue := by
  intro n
  induction n with
  | zero => intro S _ _ hrun _; exact hrun
  | succ n ih =>
    intro S hmem hctx hrun hlt
    have hstep : S.ticks + FIBER_TICK_PERIOD_MS < w := by
      have : FIBER_TICK_PERIOD_MS ≤ (n + 1) * FIBER_TICK_PERIOD_MS := by
        have := Nat.succ_le_succ (Nat.zero_le n)
        calc FIBER_TICK_PERIOD_MS = 1 * FIBER_TICK_PERIOD_MS := by ring
        _ ≤ (n + 1) * FIBER_TICK_PERIOD_MS := Nat.mul_le_mul_right _ this
      omega
    obtain ⟨hmem', hctx', hrun'⟩ := scheduler_tick_sleep_stay S f w hmem hctx hstep
    have : (scheduler_tick S).ticks + n * FIBER_TICK_PERIOD_MS < w := by
      rw [ticks_scheduler_tick]
      have : S.ticks + (n + 1) * FIBER_TICK_PERIOD_MS
          = S.ticks + FIBER_TICK_PERIOD_MS + n * FIBER_TICK_PERIOD_MS := by ring
      omega
    exact ih (scheduler_tick S) hmem' hctx' (hrun' hrun) this

lemma wake_tickN (f w : Nat) : ∀ (n : Nat) (S : SchedState), f ∈ S.sleepQueue →
    (S.fibers f).context = w → 1 ≤ n → w ≤ S.ticks + n * FIBER_TICK_PERIOD_MS →
    f ∈ (tickN n S).runQueue := by
  intro n
  induction n with
  | zero => intro S _ _ h1 _; omega
  | succ n ih =>
    intro S hmem hctx _ hle
    by_cases hcase : w ≤ S.ticks + FIBER_TICK_PERIOD_MS
    · have := scheduler_tick_wake S f w hmem hctx hcase
      exact mem_run_tickN n (scheduler_tick S) f this
    · push_neg at hcase
      obtain ⟨hmem', hctx', _⟩ := scheduler_tick_sleep_stay S f w hmem hctx hcase
      have hn : 1 ≤ n := by
        rcases Nat.eq_zero_or_pos n with h0 | h1
        · subst h0
          simp at hle
          omega
        · exact h1
      apply ih (scheduler_tick S) hmem' hctx' hn
      rw [ticks_scheduler_tick]
      have : S.ticks + (n + 1) * FIBER_TICK_PERIOD_MS
          = S.ticks + FIBER_TICK_PERIOD_MS + n * FIBER_TICK_PERIOD_MS := by ring
      omega

lemma fiber_sleep_facts (S : SchedState) (cur t : Nat)
    (hptr : (S.fibers cur).queue = none) (hrun : cur ∉ S.runQueue) :
    cur ∈ (fiber_sleep S cur t).sleepQueue
    ∧ ((fiber_sleep S cur t).fibers cur).context = S.ticks + t
    ∧ cur ∉ (fiber_sleep S cur t).runQueue
    ∧ (fiber_sleep S cur t).ticks = S.ticks := by
  have hde : dequeue_fiber S cur = S := by
    simp [dequeue_fiber, hptr]
  refine ⟨?_, ?_, ?_, ?_⟩ <;>
    simp [fiber_sleep, hde, queue_fiber, updateFiber, setQueueList, queueOf, hrun]

/-- The event record delivered by the message bus: an identifier/value pair,
mirroring the (uint16_t id, uint16_t value) pair of MicroBitFiber.h. -/
structure MicroBitEvent where
  source : Nat
  value : Nat
deriving DecidableEq, Repr

/-- The packing of a (value, id) interest pair into the fiber's single 32-bit
context word: value in the high half-word, id in the low half-word. -/
def eventContext (value id : Nat) : Nat := value * 65536 + id

/-- Modelled from the spec: the body of fiber_wait_for_event is not in src
(the header only declares it).  Per spec 4.3 it records the calling fiber's
interest in the exact (id, value) pair in its context word, places it on the
wait queue and yields. -/
def fiber_wait_for_event (S : SchedState) (cur : Nat) (id value : Nat) : SchedState :=
  let S1 := dequeue_fiber S cur
  let S2 := updateFiber S1 cur { S1.fibers cur with context := eventContext value id }
  queue_fiber S2 cur QueueId.wait

/-- Modelled from the spec: the body of scheduler_event is not in src (the
header only declares it).  Per spec 4.3 it scans the wait queue and moves every
fiber whose registered (id, value) pair matches the delivered event exactly, on
both fields, to the run queue. -/
def scheduler_event (S : SchedState) (evt : MicroBitEvent) : SchedState :=
  let key := eventContext evt.value evt.source
  let movers := S.waitQueue.filter (fun f => (S.fibers f).context == key)
  { fibers := fun i => if i ∈ movers then { S.fibers i with queue := some QueueId.run }
      else S.fibers i,
    numFibers := S.numFibers,
    runQueue := movers ++ S.runQueue,
    sleepQueue := S.sleepQueue,
    waitQueue := S.waitQueue.filter (fun f => !((S.fibers f).context == key)),
    ticks := S.ticks }

/-- Events recorded while executing fork_on_block: the direct call of the
entry function, and the materialization of a child fiber on block. -/
inductive ForkEvent where
  | entry_called
  | child_materialized
deriving DecidableEq, Repr

/-- Abstract behaviour of an entry function run under fork_on_block: either it
returns without reaching a suspension point, or it blocks onto queue q. -/
inductive EntryBehavior where
  | completes
  | blocks (q : QueueId)
deriving DecidableEq, Repr

/-- Modelled from the spec: the body of fork_on_block is not in src (the
header only declares it).  Per spec 4.2 it calls the entry function directly on
the current stack; if the function returns without blocking, nothing is
allocated and control returns, while if it blocks, a fiber control block is
materialized for the suspended child continuation (flags CHILD and FOB, placed
on the blocking queue) and the current fiber is marked as the parent
continuation, which keeps running.  Returns the new state, the id of the fiber
that continues as current, and the trace of events. -/
def fork_on_block (S : SchedState) (cur : Nat) (b : EntryBehavior) :
    SchedState × Nat × List ForkEvent :=
  match b with
  | EntryBehavior.completes => (S, cur, [ForkEvent.entry_called])
  | EntryBehavior.blocks q =>
    let child := S.numFibers
    let childFb : Fiber :=
      { S.fibers cur with flags := MICROBIT_FIBER_FLAG_CHILD ||| MICROBIT_FIBER_FLAG_FOB,
                          queue := none }
    let S1 := updateFiber S cur
      { S.fibers cur with flags := (S.fibers cur).flags ||| MICROBIT_FIBER_FLAG_PARENT }
    let S2 := { S1 with numFibers := S.numFibers + 1,
                        fibers := fun i => if i = child then childFb else S1.fibers i }
    (queue_fiber S2 child q, cur, [ForkEvent.entry_called, ForkEvent.child_materialized])

/-- Capacity in bytes of the heap buffer backing a fiber's virtualized stack. -/
def stackCapacity (f : Fiber) : Nat := f.stack_top - f.stack_bottom

/-- Modelled from the spec: the body of verify_stack_size is not in src (the
header only declares it).  Per spec 4.5 and the header comment it compares the
physical stack extent the fiber will occupy (measured down from
CORTEX_M0_STACK_BASE to the stack pointer sp) against the current buffer
capacity; if the buffer is too small it is freed and a larger block of exactly
the needed size is allocated (addresses are abstracted, the fresh buffer spans
0 to stackDepth), and otherwise nothing is changed. -/
def verify_stack_size (f : Fiber) (sp : Nat) : Fiber :=
  let stackDepth := CORTEX_M0_STACK_BASE - sp
  if stackCapacity f < stackDepth then
    { f with stack_bottom := 0, stack_top := stackDepth }
  else f

/-- Primitive operations performed by the scheduler core, as an observable
trace: the idle/low-power wait, register context save and restore, and the
stack image copies of the two-phase switch. -/
inductive Prim where
  | idle
  | save_ctx
  | restore_ctx
  | copy_stack_out
  | copy_stack_in
  | verify_stack
deriving DecidableEq, Repr

/-- Modelled from the spec: the body of schedule is not in src (the header
only declares it).  Per spec 4.1 it picks the head of the run queue as the
next fiber; if that fiber is the current one the step is a no-op fast path
with no context save or restore and no stack copy, and otherwise the next
fiber's stack allocation is resized if needed and the two-phase switch is
performed.  The empty run queue case is handled by the idle loop, modelled
separately.  Returns the new state, the new current fiber and the trace of
primitives performed. -/
def schedule (S : SchedState) (cur : Nat) (sp : Nat) : SchedState × Nat × List Prim :=
  match S.runQueue with
  | [] => (S, cur, [])
  | next :: _ =>
    if next = cur then
      (S, cur, [])
    else
      (updateFiber S next (verify_stack_size (S.fibers next) sp), next,
        [Prim.verify_stack, Prim.save_ctx, Prim.copy_stack_out,
         Prim.restore_ctx, Prim.copy_stack_in])

/-- Enqueue a batch of fibers onto the run queue, one queue_fiber call each,
modelling the fibers made runnable by tick or event interrupts arriving while
the scheduler sits in its idle loop. -/
def enqueueAll (S : SchedState) : List Nat → SchedState
  | [] => S
  | f :: rest => enqueueAll (queue_fiber S f QueueId.run) rest

/-- Modelled from the spec: the idle path of schedule and the idle_task body
are not in src (the header only declares them).  Per spec 4.1 step 1, while
the run queue is empty the scheduler invokes the external idle primitive
(processor low-power wait) and retries; it hands control to a fiber only once
the run queue is populated.  The argument arrivals lists, per idle iteration,
the fibers made runnable by external interrupts during that wait; when the
modelled arrivals are exhausted while the queue is still empty the loop has
not returned (result none) and is still waiting after its last idle call. -/
def schedule_idle : List (List Nat) → SchedState → Option (SchedState × Nat) × List Prim
  | arrivals, S =>
    if S.runQueue = [] then
      match arrivals with
      | [] => (none, [Prim.idle])
      | a :: rest =>
        let r := schedule_idle rest (enqueueAll S a)
        (r.1, Prim.idle :: r.2)
    else
      (some (S, S.runQueue.headD 0), [])

/-- Modelled from the spec: the bodies of create_fiber and launch_new_fiber
are not in src (the header declares them, with completion_fn defaulting to
release_fiber).  Per spec 4.2 create_fiber allocates a fresh fiber control
block with a minimal stack buffer, records the entry and completion functions
in its initial context and enqueues it on the run queue.  The C++ default
argument is modelled by an Option, none standing for an omitted argument. -/
def create_fiber (S : SchedState) (entry_fn : Nat) (completion_fn : Option CompletionFn) :
    SchedState × Nat :=
  let fid := S.numFibers
  let fb : Fiber :=
    { stack_top := FIBER_STACK_SIZE, stack_bottom := 0, context := 0, flags := 0,
      queue := none, entry_fn := entry_fn, param := 0,
      completion_fn := completion_fn.getD CompletionFn.release_fiber }
  let S1 := { S with numFibers := fid + 1,
                     fibers := fun i => if i = fid then fb else S.fibers i }
  (queue_fiber S1 fid QueueId.run, fid)

/-- Modelled from the spec: the parameterised create_fiber overload, which
additionally stores the untyped parameter passed to entry and completion. -/
def create_fiber_param (S : SchedState) (entry_fn param : Nat)
    (completion_fn : Option CompletionFn) : SchedState × Nat :=
  let fid := S.numFibers
  let fb : Fiber :=
    { stack_top := FIBER_STACK_SIZE, stack_bottom := 0, context := 0, flags := 0,
      queue := none, entry_fn := entry_fn, param := param,
      completion_fn := completion_fn.getD CompletionFn.release_fiber }
  let S1 := { S with numFibers := fid + 1,
                     fibers := fun i => if i = fid then fb else S.fibers i }
  (queue_fiber S1 fid QueueId.run, fid)

/-- Calls performed when a fiber first runs, as an observable trace. -/
inductive TrampStep where
  | call_entry (fn : Nat)
  | call_entry_param (fn p : Nat)
  | call_completion (c : CompletionFn)
  | call_completion_param (c : CompletionFn) (p : Nat)
deriving DecidableEq, Repr

/-- Modelled from the spec: the launch_new_fiber trampoline is not in src (the
header only declares it).  First execution of a fiber begins at this
trampoline, which calls the entry function and then unconditionally calls the
completion function when the entry function returns. -/
def launch_new_fiber (fb : Fiber) : List TrampStep :=
  [TrampStep.call_entry fb.entry_fn, TrampStep.call_completion fb.completion_fn]

/-- Modelled from the spec: the launch_new_fiber_param trampoline for
parameterised fibers, passing the stored parameter to both calls. -/
def launch_new_fiber_param (fb : Fiber) : List TrampStep :=
  [TrampStep.call_entry_param fb.entry_fn fb.param,
   TrampStep.call_completion_param fb.completion_fn fb.param]

/-- Setting a flag bit in a fiber's flags bitset. -/
def setFiberFlag (fb : Fiber) (m : Nat) : Fiber := { fb with flags := fb.flags ||| m }

/-- Clearing a flag bit in a fiber's flags bitset (the bits of m that are set
in flags are removed). -/
def clearFiberFlag (fb : Fiber) (m : Nat) : Fiber :=
  { fb with flags := fb.flags ^^^ (fb.flags &&& m) }

/-- Reinterpretation of a 32-bit unsigned register value as a C int, i.e. as a
signed two's complement 32-bit integer, modelling the (int) cast in
inInterruptContext. -/
def toCInt (x : Nat) : Int :=
  if x < 2 ^ 31 then (x : Int) else (x : Int) - 2 ^ 32

/-- Translated from the body in MicroBitFiber.h: return (((int)__get_IPSR()) &
0x003F) > 0; — the IPSR register value (a 32-bit quantity, passed here as the
parameter ipsr) is cast to int, masked with 0x3F, and compared against zero;
the C comparison yields the int 1 or 0, which is the return value. -/
def inInterruptContext (ipsr : Nat) : Int :=
  if 0 < Int.land (toCInt ipsr) 0x3F then 1 else 0

/-- A freshly initialised fiber record, used as a concrete sample. -/
def fb0 : Fiber :=
  { stack_top := 64, stack_bottom := 0, context := 0, flags := 0, queue := none,
    entry_fn := 0, param := 0, completion_fn := CompletionFn.release_fiber }

/-- A concrete one-fiber scheduler state with all queues empty: fiber 0 is the
currently running one. -/
def S0 : SchedState :=
  { fibers := fun _ => fb0, numFibers := 1, runQueue := [], sleepQueue := [],
    waitQueue := [], ticks := 0 }

/-- Claim C1: for every fiber f, at every observation point, f is a member of
at most one queue, its queue back-pointer names exactly the queue containing
it (none when on no queue), and queue_fiber (applied to the running fiber,
which is on no queue) and dequeue_fiber each preserve this invariant. -/
theorem queue_exclusivity (S : SchedState) (f : Nat) (q : QueueId)
    (hInv : QueueInv S) (hf : f < S.numFibers) (hfree : (S.fibers f).queue = none) :
    QueueInv (queue_fiber S f q)
    ∧ (∀ T g, QueueInv T → QueueInv (dequeue_fiber T g))
    ∧ (∀ g q1 q2, g ∈ queueOf S q1 → g ∈ queueOf S q2 → q1 = q2)
    ∧ (∀ g qg, g < S.numFibers → ((S.fibers g).queue = some qg ↔ g ∈ queueOf S qg)) := by
  refine ⟨Inv_queue_fiber S f q hInv hf hfree,
    fun T g hT => Inv_dequeue_fiber T g hT, ?_, ?_⟩
  · intro g q1 q2 h1 h2
    have e1 := (hInv.1 q1 g h1).2
    have e2 := (hInv.1 q2 g h2).2
    rw [e1] at e2
    exact Option.some_injective _ e2
  · intro g qg hg
    exact ⟨fun h => hInv.2.1 g hg qg h, fun h => (hInv.1 qg g h).2⟩

theorem queue_exclusivity_witness :
    QueueInv (queue_fiber S0 0 QueueId.run) ∧ QueueInv (dequeue_fiber S0 0) :=
  ⟨(queue_exclusivity S0 0 QueueId.run (by decide) (by decide) (by decide)).1,
   (queue_exclusivity S0 0 QueueId.run (by decide) (by decide) (by decide)).2.1 S0 0
     (by decide)⟩

/-- Claim C2: a fiber that calls fiber_sleep t at tick T0 is not moved to the
run queue by any scheduler_tick step while the tick counter is still below
T0 + t, and once the tick counter reaches T0 + t it is moved to the run queue
as the scheduler advances (and so is eventually runnable). -/
theorem wake_monotonicity (S : SchedState) (cur t : Nat)
    (hptr : (S.fibers cur).queue = none) (hrun : cur ∉ S.runQueue) :
    (∀ n, S.ticks + n * FIBER_TICK_PERIOD_MS < S.ticks + t →
        cur ∉ (tickN n (fiber_sleep S cur t)).runQueue)
    ∧ (∀ n, 1 ≤ n → S.ticks + t ≤ S.ticks + n * FIBER_TICK_PERIOD_MS →
        cur ∈ (tickN n (fiber_sleep S cur t)).runQueue)
    ∧ (∃ n, cur ∈ (tickN n (fiber_sleep S cur t)).runQueue) := by
  obtain ⟨hmem, hctx, hnrun, hticks⟩ := fiber_sleep_facts S cur t hptr hrun
  refine ⟨?_, ?_, ?_⟩
  · intro n hn
    apply asleep_tickN cur (S.ticks + t) n (fiber_sleep S cur t) hmem hctx hnrun
    rw [hticks]
    exact hn
  · intro n h1 hle
    apply wake_tickN cur (S.ticks + t) n (fiber_sleep S cur t) hmem hctx h1
    rw [hticks]
    omega
  · refine ⟨t + 1, ?_⟩
    apply wake_tickN cur (S.ticks + t) (t + 1) (fiber_sleep S cur t) hmem hctx (by omega)
    rw [hticks]
    have h6 : FIBER_TICK_PERIOD_MS = 6 := rfl
    rw [h6]
    omega

theorem wake_monotonicity_witness :
    0 ∉ (tickN 1 (fiber_sleep S0 0 12)).runQueue
    ∧ 0 ∈ (tickN 2 (fiber_sleep S0 0 12)).runQueue :=
  ⟨(wake_monotonicity S0 0 12 (by decide) (by decide)).1 1 (by decide),
   (wake_monotonicity S0 0 12 (by decide) (by decide)).2.1 2 (by decide) (by decide)⟩

/-- Claim C3: scheduler_event with event (id = X, value = Y) moves to the run
queue exactly those waiting fibers registered for (X, Y) via
fiber_wait_for_event, matching on both fields, and no other fiber; a fiber
waiting on (X, Z) with Z different from Y stays on the wait queue.  The
registration packing is injective over the uint16 ranges of id and value, and
fiber_wait_for_event records exactly the requested pair. -/
theorem event_match_exactness (S : SchedState) (evt : MicroBitEvent) :
    (∀ f, f ∈ S.waitQueue → (S.fibers f).context = eventContext evt.value evt.source →
        f ∈ (scheduler_event S evt).runQueue)
    ∧ (∀ f z, f ∈ S.waitQueue → (S.fibers f).context = eventContext z evt.source →
        z ≠ evt.value →
        f ∈ (scheduler_event S evt).waitQueue
          ∧ (f ∉ S.runQueue → f ∉ (scheduler_event S evt).runQueue))
    ∧ (∀ f, f ∈ (scheduler_event S evt).runQueue →
        f ∈ S.runQueue
          ∨ (f ∈ S.waitQueue ∧ (S.fibers f).context = eventContext evt.value evt.source))
    ∧ (∀ id v id' v', id < 65536 → id' < 65536 →
        eventContext v id = eventContext v' id' → id = id' ∧ v = v')
    ∧ (∀ g id v, ((fiber_wait_for_event S g id v).fibers g).context = eventContext v id
        ∧ g ∈ (fiber_wait_for_event S g id v).waitQueue) := by
  refine ⟨?_, ?_, ?_, ?_, ?_⟩
  · intro f hf hctx
    simp only [scheduler_event]
    rw [List.mem_append]
    left
    rw [List.mem_filter]
    exact ⟨hf, by simp [hctx]⟩
  · intro f z hf hctx hz
    have hneq : (S.fibers f).context ≠ eventContext evt.value evt.source := by
      rw [hctx]
      unfold eventContext
      intro hc
      exact hz (by omega)
    constructor
    · simp only [scheduler_event]
      rw [List.mem_filter]
      exact ⟨hf, by simp [hneq]⟩
    · intro hrun hmem
      simp only [scheduler_event] at hmem
      rcases List.mem_append.1 hmem with hm | hm
      · rw [List.mem_filter] at hm
        exact hneq (by simpa using hm.2)
      · exact hrun hm
  · intro f hmem
    simp only [scheduler_event] at hmem
    rcases List.mem_append.1 hmem with hm | hm
    · rw [List.mem_filter] at hm
      exact Or.inr ⟨hm.1, by simpa using hm.2⟩
    · exact Or.inl hm
  · intro id v id' v' hid hid' heq
    unfold eventContext at heq
    omega
  · intro g id v
    constructor
    · simp [fiber_wait_for_event, fibers_queue_fiber, fibers_updateFiber]
    · show g ∈ queueOf (fiber_wait_for_event S g id v) QueueId.wait
      simp only [fiber_wait_for_event]
      rw [queueOf_queue_fiber]
      simp

/-- A concrete waiting fiber record, registered for event (id 7, value 3). -/
def fbW : Fiber := { fb0 with context := eventContext 3 7, queue := some QueueId.wait }

/-- A concrete state with one fiber blocked on the wait queue for (7, 3). -/
def SW : SchedState :=
  { fibers := fun _ => fbW, numFibers := 1, runQueue := [], sleepQueue := [],
    waitQueue := [0], ticks := 0 }

theorem event_match_exactness_witness :
    0 ∈ (scheduler_event SW { source := 7, value := 3 }).runQueue
    ∧ 0 ∈ (scheduler_event SW { source := 7, value := 4 }).waitQueue :=
  ⟨(event_match_exactness SW { source := 7, value := 3 }).1 0 (by decide) (by decide),
   ((event_match_exactness SW { source := 7, value := 4 }).2.1 0 3 (by decide) (by decide)
     (by decide)).1⟩

/-- Claim C4: an entry function that returns without blocking leaves the whole
state (in particular the fiber count and the run queue) untouched, with only
the direct call of the entry function performed; an entry function that blocks
produces exactly two independently resumable continuations: the parent (the
current fiber, marked PARENT, which keeps running) and the child (one newly
materialized control block, marked CHILD, suspended on the blocking queue). -/
theorem fork_on_block_non_materialization (S : SchedState) (cur : Nat) (q : QueueId)
    (hcur : cur < S.numFibers) :
    (fork_on_block S cur EntryBehavior.completes = (S, cur, [ForkEvent.entry_called]))
    ∧ ((fork_on_block S cur (EntryBehavior.blocks q)).1.numFibers = S.numFibers + 1)
    ∧ ((fork_on_block S cur (EntryBehavior.blocks q)).2.1 = cur)
    ∧ (((fork_on_block S cur (EntryBehavior.blocks q)).1.fibers cur).flags
        = (S.fibers cur).flags ||| MICROBIT_FIBER_FLAG_PARENT)
    ∧ (((fork_on_block S cur (EntryBehavior.blocks q)).1.fibers S.numFibers).flags
        = MICROBIT_FIBER_FLAG_CHILD ||| MICROBIT_FIBER_FLAG_FOB)
    ∧ cur ≠ S.numFibers
    ∧ S.numFibers ∈ queueOf (fork_on_block S cur (EntryBehavior.blocks q)).1 q := by
  have hne : cur ≠ S.numFibers := Nat.ne_of_lt hcur
  refine ⟨rfl, ?_, rfl, ?_, ?_, hne, ?_⟩
  · simp [fork_on_block, numFibers_queue_fiber]
  · simp [fork_on_block, fibers_queue_fiber, fibers_updateFiber, hne]
  · simp [fork_on_block, fibers_queue_fiber, fibers_updateFiber]
  · simp [fork_on_block, queueOf_queue_fiber]

theorem fork_on_block_witness :
    (fork_on_block S0 0 EntryBehavior.completes = (S0, 0, [ForkEvent.entry_called]))
    ∧ (fork_on_block S0 0 (EntryBehavior.blocks QueueId.wait)).1.numFibers
        = S0.numFibers + 1 :=
  ⟨(fork_on_block_non_materialization S0 0 QueueId.wait (by decide)).1,
   (fork_on_block_non_materialization S0 0 QueueId.wait (by decide)).2.1⟩

/-- Claim C5: verify_stack_size does nothing when the fiber's buffer already
holds the stack extent it will occupy (measured down from
CORTEX_M0_STACK_BASE to the stack pointer), grows the buffer strictly when it
is too small, and never shrinks it. -/
theorem verify_stack_size_grow_only (f : Fiber) (sp : Nat) :
    (CORTEX_M0_STACK_BASE - sp ≤ stackCapacity f → verify_stack_size f sp = f)
    ∧ (stackCapacity f < CORTEX_M0_STACK_BASE - sp →
        stackCapacity f < stackCapacity (verify_stack_size f sp))
    ∧ stackCapacity f ≤ stackCapacity (verify_stack_size f sp) := by
  refine ⟨?_, ?_, ?_⟩
  · intro hle
    unfold verify_stack_size
    rw [if_neg (by omega)]
  · intro hlt
    unfold verify_stack_size
    rw [if_pos hlt]
    simp only [stackCapacity] at hlt ⊢
    omega
  · by_cases h : stackCapacity f < CORTEX_M0_STACK_BASE - sp
    · unfold verify_stack_size
      rw [if_pos h]
      simp only [stackCapacity] at h ⊢
      omega
    · unfold verify_stack_size
      rw [if_neg h]

theorem verify_stack_size_witness :
    stackCapacity fb0 < stackCapacity (verify_stack_size fb0 (CORTEX_M0_STACK_BASE - 100))
    ∧ verify_stack_size fb0 (CORTEX_M0_STACK_BASE - 32) = fb0 :=
  ⟨(verify_stack_size_grow_only fb0 (CORTEX_M0_STACK_BASE - 100)).2.1 (by decide),
   (verify_stack_size_grow_only fb0 (CORTEX_M0_STACK_BASE - 32)).1 (by decide)⟩

/-- Claim C6: when schedule selects as next fiber the same fiber that is
currently running (the head of the run queue is the current fiber), the whole
scheduling step changes nothing: the state and current fiber are returned
unchanged and no register save, register restore or stack copy primitive is
performed. -/
theorem self_switch_noop (S : SchedState) (cur sp : Nat)
    (h : S.runQueue.head? = some cur) :
    schedule S cur sp = (S, cur, [])
    ∧ Prim.save_ctx ∉ (schedule S cur sp).2.2
    ∧ Prim.restore_ctx ∉ (schedule S cur sp).2.2
    ∧ Prim.copy_stack_out ∉ (schedule S cur sp).2.2
    ∧ Prim.copy_stack_in ∉ (schedule S cur sp).2.2 := by
  rcases hq : S.runQueue with _ | ⟨next, rest⟩
  · rw [hq] at h
    simp at h
  · rw [hq] at h
    simp at h
    subst h
    have hs : schedule S next sp = (S, next, []) := by
      unfold schedule
      rw [hq]
      simp
    rw [hs]
    exact ⟨rfl, by simp, by simp, by simp, by simp⟩

/-- A concrete state whose run queue holds exactly fiber 0. -/
def SR : SchedState :=
  { fibers := fun _ => fb0, numFibers := 1, runQueue := [0], sleepQueue := [],
    waitQueue := [], ticks := 0 }

theorem self_switch_noop_witness : schedule SR 0 0 = (SR, 0, []) :=
  (self_switch_noop SR 0 0 (by decide)).1

lemma runQueue_queue_fiber_run (S : SchedState) (f : Nat) :
    (queue_fiber S f QueueId.run).runQueue = f :: S.runQueue := by
  have := queueOf_queue_fiber S f QueueId.run QueueId.run
  simpa [queueOf] using this

lemma runQueue_enqueueAll_ne : ∀ (a : List Nat) (S : SchedState),
    S.runQueue ≠ [] → (enqueueAll S a).runQueue ≠ [] := by
  intro a
  induction a with
  | nil => intro S h; exact h
  | cons f rest ih =>
    intro S _
    show (enqueueAll (queue_fiber S f QueueId.run) rest).runQueue ≠ []
    apply ih
    rw [runQueue_queue_fiber_run]
    simp

lemma runQueue_enqueueAll_cons (f : Nat) (fs : List Nat) (S : SchedState) :
    (enqueueAll S (f :: fs)).runQueue ≠ [] := by
  show (enqueueAll (queue_fiber S f QueueId.run) fs).runQueue ≠ []
  apply runQueue_enqueueAll_ne
  rw [runQueue_queue_fiber_run]
  simp

lemma headD_mem_of_ne_nil (l : List Nat) (h : l ≠ []) : l.headD 0 ∈ l := by
  cases l with
  | nil => exact absurd rfl h
  | cons x xs => simp

lemma head_getD_mem_of_ne_nil (l : List Nat) (h : l ≠ []) : l.head?.getD 0 ∈ l := by
  cases l with
  | nil => exact absurd rfl h
  | cons x xs => simp

lemma schedule_idle_of_ne_nil (arr : List (List Nat)) (S : SchedState)
    (h : S.runQueue ≠ []) :
    schedule_idle arr S = (some (S, S.runQueue.headD 0), []) := by
  unfold schedule_idle
  rw [if_neg h]

lemma schedule_idle_trace_idle : ∀ (arr : List (List Nat)) (S : SchedState),
    ∀ p ∈ (schedule_idle arr S).2, p = Prim.idle := by
  intro arr
  induction arr with
  | nil =>
    intro S p hp
    unfold schedule_idle at hp
    by_cases h : S.runQueue = []
    · rw [if_pos h] at hp
      simp at hp
      exact hp
    · rw [if_neg h] at hp
      simp at hp
  | cons a rest ih =>
    intro S p hp
    unfold schedule_idle at hp
    by_cases h : S.runQueue = []
    · rw [if_pos h] at hp
      simp at hp
      rcases hp with hp | hp
      · exact hp
      · exact ih (enqueueAll S a) p hp
    · rw [if_neg h] at hp
      simp at hp

lemma schedule_idle_some : ∀ (arr : List (List Nat)) (S : SchedState)
    (S' : SchedState) (n : Nat), (schedule_idle arr S).1 = some (S', n) →
    S'.runQueue ≠ [] ∧ n ∈ S'.runQueue := by
  intro arr
  induction arr with
  | nil =>
    intro S S' n h
    unfold schedule_idle at h
    by_cases hq : S.runQueue = []
    · rw [if_pos hq] at h
      simp at h
    · rw [if_neg hq] at h
      simp at h
      obtain ⟨hS, hn⟩ := h
      subst hS
      subst hn
      exact ⟨hq, head_getD_mem_of_ne_nil _ hq⟩
  | cons a rest ih =>
    intro S S' n h
    unfold schedule_idle at h
    by_cases hq : S.runQueue = []
    · rw [if_pos hq] at h
      simp at h
      exact ih (enqueueAll S a) S' n h
    · rw [if_neg hq] at h
      simp at h
      obtain ⟨hS, hn⟩ := h
      subst hS
      subst hn
      exact ⟨hq, head_getD_mem_of_ne_nil _ hq⟩

lemma schedule_idle_trace_len : ∀ (arr : List (List Nat)) (S : SchedState),
    (schedule_idle arr S).2.length ≤ arr.length + 1 := by
  intro arr
  induction arr with
  | nil =>
    intro S
    unfold schedule_idle
    by_cases h : S.runQueue = []
    · rw [if_pos h]
      simp
    · rw [if_neg h]
      simp
  | cons a rest ih =>
    intro S
    unfold schedule_idle
    by_cases h : S.runQueue = []
    · rw [if_pos h]
      have := ih (enqueueAll S a)
      simp
      omega
    · rw [if_neg h]
      simp

lemma schedule_idle_progress : ∀ (arr : List (List Nat)) (S : SchedState),
    S.runQueue = [] → (∃ a ∈ arr, a ≠ []) →
    ((schedule_idle arr S).1).isSome = true := by
  intro arr
  induction arr with
  | nil =>
    intro S _ hex
    obtain ⟨a, ha, _⟩ := hex
    simp at ha
  | cons a rest ih =>
    intro S hq hex
    unfold schedule_idle
    rw [if_pos hq]
    simp only
    by_cases hru : (enqueueAll S a).runQueue = []
    · cases a with
      | nil =>
        obtain ⟨b, hb, hbne⟩ := hex
        simp at hb
        rcases hb with hb | hb
        · exact absurd hb hbne
        · exact ih (enqueueAll S []) hru ⟨b, hb, hbne⟩
      | cons f fs => exact absurd hru (runQueue_enqueueAll_cons f fs S)
    · rw [schedule_idle_of_ne_nil rest (enqueueAll S a) hru]
      rfl

/-- Claim C7: whenever schedule runs with an empty run queue, every step it
takes before the run queue becomes non-empty is an invocation of the idle
primitive (the trace consists only of idle calls, one per waiting iteration,
never a busy spin without it), it never hands control back while the run queue
is still empty (a returned selection always carries a non-empty run queue and
a runnable fiber from it), and once a tick or event delivery populates the run
queue the loop returns a selection. -/
theorem idle_correctness (arrivals : List (List Nat)) (S : SchedState) :
    (∀ p ∈ (schedule_idle arrivals S).2, p = Prim.idle)
    ∧ (∀ S' n, (schedule_idle arrivals S).1 = some (S', n) →
        S'.runQueue ≠ [] ∧ n ∈ S'.runQueue)
    ∧ ((schedule_idle arrivals S).2.length ≤ arrivals.length + 1)
    ∧ (S.runQueue = [] → (∃ a ∈ arrivals, a ≠ []) →
        ((schedule_idle arrivals S).1).isSome = true) :=
  ⟨schedule_idle_trace_idle arrivals S,
   fun S' n h => schedule_idle_some arrivals S S' n h,
   schedule_idle_trace_len arrivals S,
   fun hq hex => schedule_idle_progress arrivals S hq hex⟩

theorem idle_correctness_witness :
    ((schedule_idle [[0]] S0).1).isSome = true
    ∧ (∀ p ∈ (schedule_idle [[0]] S0).2, p = Prim.idle) :=
  ⟨(idle_correctness [[0]] S0).2.2.2 rfl ⟨[0], by decide, by decide⟩,
   (idle_correctness [[0]] S0).1⟩

/-- Claim C8: for both create_fiber overloads the completion function
parameter defaults to release_fiber (the C++ default argument is an omitted
Option), first execution of the new fiber goes through the launch trampoline,
which calls the entry function and then unconditionally the completion
function, so a fiber whose entry function returns always reaches
release_fiber or the supplied completion function; the new fiber is enqueued
on the run queue. -/
theorem create_fiber_trampoline (S : SchedState) (e p : Nat)
    (copt : Option CompletionFn) :
    ((create_fiber S e none).1.fibers S.numFibers).completion_fn
        = CompletionFn.release_fiber
    ∧ ((create_fiber_param S e p none).1.fibers S.numFibers).completion_fn
        = CompletionFn.release_fiber
    ∧ launch_new_fiber ((create_fiber S e copt).1.fibers S.numFibers)
        = [TrampStep.call_entry e,
           TrampStep.call_completion (copt.getD CompletionFn.release_fiber)]
    ∧ launch_new_fiber_param ((create_fiber_param S e p copt).1.fibers S.numFibers)
        = [TrampStep.call_entry_param e p,
           TrampStep.call_completion_param (copt.getD CompletionFn.release_fiber) p]
    ∧ S.numFibers ∈ (create_fiber S e copt).1.runQueue := by
  refine ⟨?_, ?_, ?_, ?_, ?_⟩
  · simp [create_fiber, fibers_queue_fiber]
  · simp [create_fiber_param, fibers_queue_fiber]
  · simp [create_fiber, launch_new_fiber, fibers_queue_fiber]
  · simp [create_fiber_param, launch_new_fiber_param, fibers_queue_fiber]
  · simp only [create_fiber]
    rw [runQueue_queue_fiber_run]
    simp

lemma or_and_eq_of_and_eq_zero (x a b : Nat) (h : a &&& b = 0) :
    (x ||| a) &&& b = x &&& b := by
  apply Nat.eq_of_testBit_eq
  intro i
  have hb : (a.testBit i && b.testBit i) = false := by
    rw [← Nat.testBit_and, h]
    simp
  rw [Nat.testBit_and, Nat.testBit_or, Nat.testBit_and]
  cases hx : x.testBit i <;> cases hA : a.testBit i <;> cases hB : b.testBit i <;> simp_all

lemma xor_and_eq_of_and_eq_zero (x a b : Nat) (h : a &&& b = 0) :
    (x ^^^ (x &&& a)) &&& b = x &&& b := by
  apply Nat.eq_of_testBit_eq
  intro i
  have hb : (a.testBit i && b.testBit i) = false := by
    rw [← Nat.testBit_and, h]
    simp
  rw [Nat.testBit_and, Nat.testBit_xor, Nat.testBit_and, Nat.testBit_and]
  cases hx : x.testBit i <;> cases hA : a.testBit i <;> cases hB : b.testBit i <;> simp_all

/-- Claim C9: the three flag masks of MicroBitFiber.h are pairwise disjoint
single bits (FOB bit 0, PARENT bit 1, CHILD bit 2), so setting or clearing any
one of them in a fiber's flags bitset never alters the other two. -/
theorem fiber_flag_masks (fb : Fiber) :
    (MICROBIT_FIBER_FLAG_FOB = 2 ^ 0 ∧ MICROBIT_FIBER_FLAG_PARENT = 2 ^ 1
      ∧ MICROBIT_FIBER_FLAG_CHILD = 2 ^ 2)
    ∧ (MICROBIT_FIBER_FLAG_FOB &&& MICROBIT_FIBER_FLAG_PARENT = 0
      ∧ MICROBIT_FIBER_FLAG_FOB &&& MICROBIT_FIBER_FLAG_CHILD = 0
      ∧ MICROBIT_FIBER_FLAG_PARENT &&& MICROBIT_FIBER_FLAG_CHILD = 0)
    ∧ ((setFiberFlag fb MICROBIT_FIBER_FLAG_FOB).flags &&& MICROBIT_FIBER_FLAG_PARENT
        = fb.flags &&& MICROBIT_FIBER_FLAG_PARENT)
    ∧ ((setFiberFlag fb MICROBIT_FIBER_FLAG_FOB).flags &&& MICROBIT_FIBER_FLAG_CHILD
        = fb.flags &&& MICROBIT_FIBER_FLAG_CHILD)
    ∧ ((setFiberFlag fb MICROBIT_FIBER_FLAG_PARENT).flags &&& MICROBIT_FIBER_FLAG_FOB
        = fb.flags &&& MICROBIT_FIBER_FLAG_FOB)
    ∧ ((setFiberFlag fb MICROBIT_FIBER_FLAG_PARENT).flags &&& MICROBIT_FIBER_FLAG_CHILD
        = fb.flags &&& MICROBIT_FIBER_FLAG_CHILD)
    ∧ ((setFiberFlag fb MICROBIT_FIBER_FLAG_CHILD).flags &&& MICROBIT_FIBER_FLAG_FOB
        = fb.flags &&& MICROBIT_FIBER_FLAG_FOB)
    ∧ ((setFiberFlag fb MICROBIT_FIBER_FLAG_CHILD).flags &&& MICROBIT_FIBER_FLAG_PARENT
        = fb.flags &&& MICROBIT_FIBER_FLAG_PARENT)
    ∧ ((clearFiberFlag fb MICROBIT_FIBER_FLAG_FOB).flags &&& MICROBIT_FIBER_FLAG_PARENT
        = fb.flags &&& MICROBIT_FIBER_FLAG_PARENT)
    ∧ ((clearFiberFlag fb MICROBIT_FIBER_FLAG_FOB).flags &&& MICROBIT_FIBER_FLAG_CHILD
        = fb.flags &&& MICROBIT_FIBER_FLAG_CHILD)
    ∧ ((clearFiberFlag fb MICROBIT_FIBER_FLAG_PARENT).flags &&& MICROBIT_FIBER_FLAG_FOB
        = fb.flags &&& MICROBIT_FIBER_FLAG_FOB)
    ∧ ((clearFiberFlag fb MICROBIT_FIBER_FLAG_PARENT).flags &&& MICROBIT_FIBER_FLAG_CHILD
        = fb.flags &&& MICROBIT_FIBER_FLAG_CHILD)
    ∧ ((clearFiberFlag fb MICROBIT_FIBER_FLAG_CHILD).flags &&& MICROBIT_FIBER_FLAG_FOB
        = fb.flags &&& MICROBIT_FIBER_FLAG_FOB)
    ∧ ((clearFiberFlag fb MICROBIT_FIBER_FLAG_CHILD).flags &&& MICROBIT_FIBER_FLAG_PARENT
        = fb.flags &&& MICROBIT_FIBER_FLAG_PARENT) :=
  ⟨⟨by decide, by decide, by decide⟩,
   ⟨by decide, by decide, by decide⟩,
   or_and_eq_of_and_eq_zero fb.flags _ _ (by decide),
   or_and_eq_of_and_eq_zero fb.flags _ _ (by decide),
   or_and_eq_of_and_eq_zero fb.flags _ _ (by decide),
   or_and_eq_of_and_eq_zero fb.flags _ _ (by decide),
   or_and_eq_of_and_eq_zero fb.flags _ _ (by decide),
   or_and_eq_of_and_eq_zero fb.flags _ _ (by decide),
   xor_and_eq_of_and_eq_zero fb.flags _ _ (by decide),
   xor_and_eq_of_and_eq_zero fb.flags _ _ (by decide),
   xor_and_eq_of_and_eq_zero fb.flags _ _ (by decide),
   xor_and_eq_of_and_eq_zero fb.flags _ _ (by decide),
   xor_and_eq_of_and_eq_zero fb.flags _ _ (by decide),
   xor_and_eq_of_and_eq_zero fb.flags _ _ (by decide)⟩

lemma and63_eq_mod (x : Nat) : x &&& 63 = x % 64 := by
  apply Nat.eq_of_testBit_eq
  intro i
  have h64 : (64 : Nat) = 2 ^ 6 := by norm_num
  have h63 : (63 : Nat) = 2 ^ 6 - 1 := by norm_num
  rw [Nat.testBit_and, h64, Nat.testBit_mod_two_pow]
  rw [show Nat.testBit 63 i = decide (i < 6) by rw [h63, Nat.testBit_two_pow_sub_one]]
  rw [Bool.and_comm]

lemma ldiff63_eq (x : Nat) (hx : x < 2 ^ 32) :
    Nat.ldiff 63 (2 ^ 32 - 1 - x) = x % 64 := by
  apply Nat.eq_of_testBit_eq
  intro i
  have h1 : (2 : Nat) ^ 32 - 1 - x = 2 ^ 32 - (x + 1) := by omega
  rw [Nat.testBit_ldiff, h1, Nat.testBit_two_pow_sub_succ hx]
  have h64 : (64 : Nat) = 2 ^ 6 := by norm_num
  rw [h64, Nat.testBit_mod_two_pow]
  rw [show Nat.testBit 63 i = decide (i < 6) by
    rw [show (63 : Nat) = 2 ^ 6 - 1 by norm_num, Nat.testBit_two_pow_sub_one]]
  by_cases h6 : i < 6
  · have h32 : i < 32 := by omega
    simp [h6, h32]
  · simp [h6]

lemma toCInt_land63 (x : Nat) (hx : x < 2 ^ 32) :
    Int.land (toCInt x) 63 = ((x % 64 : Nat) : Int) := by
  by_cases h : x < 2 ^ 31
  · have h1 : toCInt x = Int.ofNat x := by
      unfold toCInt
      rw [if_pos h]
      rfl
    rw [h1]
    have h2 : Int.land (Int.ofNat x) 63 = Int.ofNat (x &&& 63) := rfl
    rw [h2, and63_eq_mod]
    rfl
  · have h1 : toCInt x = Int.negSucc (2 ^ 32 - 1 - x) := by
      unfold toCInt
      rw [if_neg h]
      rw [Int.negSucc_eq]
      push_neg at h
      omega
    rw [h1]
    have h2 : Int.land (Int.negSucc (2 ^ 32 - 1 - x)) 63
        = Int.ofNat (Nat.ldiff 63 (2 ^ 32 - 1 - x)) := rfl
    rw [h2, ldiff63_eq x hx]
    rfl

/-- Claim C10: for every 32-bit value of the IPSR register, inInterruptContext
returns a positive value (namely 1) exactly when the low six bits of the value
(mask 0x003F) are nonzero, and returns 0 whenever all six of those bits are
zero; its result is a function of the IPSR value alone. -/
theorem inInterruptContext_spec (ipsr : Nat) (h : ipsr < 2 ^ 32) :
    (0 < inInterruptContext ipsr ↔ ipsr &&& 0x3F ≠ 0)
    ∧ (ipsr &&& 0x3F = 0 → inInterruptContext ipsr = 0)
    ∧ (inInterruptContext ipsr = 0 ∨ inInterruptContext ipsr = 1) := by
  have hl := toCInt_land63 ipsr h
  have hmod : ipsr &&& 0x3F = ipsr % 64 := and63_eq_mod ipsr
  have key : inInterruptContext ipsr = if 0 < ipsr % 64 then 1 else 0 := by
    unfold inInterruptContext
    rw [hl]
    by_cases hz : 0 < ipsr % 64
    · rw [if_pos (by exact_mod_cast hz), if_pos hz]
    · rw [if_neg (by exact_mod_cast hz), if_neg hz]
  rw [key, hmod]
  by_cases hz : 0 < ipsr % 64
  · rw [if_pos hz]
    refine ⟨⟨fun _ => by omega, fun _ => by norm_num⟩, fun hc => by omega, Or.inr rfl⟩
  · rw [if_neg hz]
    refine ⟨⟨fun hc => absurd hc (by norm_num), fun hc => by omega⟩, fun _ => rfl,
      Or.inl rfl⟩

theorem inInterruptContext_witness :
    0 < inInterruptContext 3 ∧ inInterruptContext 64 = 0 :=
  ⟨(inInterruptContext_spec 3 (by norm_num)).1.mpr (by decide),
   (inInterruptContext_spec 64 (by norm_num)).2.1 (by decide)⟩
